import Mathlib

/-
Verification of the codon-usage feature extraction pipeline of
vica/prodigal.py.

Python strings are modelled as lists of characters, Python dicts as
insertion-ordered association lists (a Python dict never holds two entries
with the same key; insertion order is the order of first assignment of each
key).  A Python function that can raise an exception is modelled with an
Option result, none standing for the raised exception.
-/

/-- A codon key: in the source these are 3-character strings. -/
abbrev Codon := List Char

/-- A Python dict from codon to count, as an insertion-ordered association
list.  Dicts built by the program never repeat a key. -/
abbrev PyDict := List (Codon × ℕ)

/-- Python lookup `d[k]` / `k in d`: the first binding of `k`, if any.
On the dicts the program builds, keys are unique, so this is exactly the
Python dict lookup. -/
def dlookup (d : PyDict) (k : Codon) : Option ℕ :=
  match d with
  | [] => none
  | (k', v) :: rest => if k' = k then some v else dlookup rest k

/-- Python dict equality `a == b`: same keys, same values, order ignored. -/
def pyEq (a b : PyDict) : Prop := ∀ k, dlookup a k = dlookup b k

/-- `d[k] += v`, creating the entry with value `v` when `k` is absent
(Python appends new keys at the end, and updates existing keys in place).
This is the elementary mutation used by `_codon_to_dict` (with `v = 1`)
and by the `defaultdict` accumulation inside `dsum`. -/
def dinsertAdd (d : PyDict) (k : Codon) (v : ℕ) : PyDict :=
  match d with
  | [] => [(k, v)]
  | (k', v') :: rest =>
      if k' = k then (k', v' + v) :: rest else (k', v') :: dinsertAdd rest k v

/-- The keys of a dict are pairwise distinct (true of every dict the
program constructs). -/
def NodupK (d : PyDict) : Prop := (d.map Prod.fst).Nodup

/-- Source `dsum` inner loop: fold the items of dict `d` into `ret` via
`ret[k] += v`. -/
def dadd (ret : PyDict) (d : PyDict) : PyDict :=
  d.foldl (fun r kv => dinsertAdd r kv.1 kv.2) ret

/-- Source `dsum(*dicts)`: key-wise sum of any number of dicts, starting
from an empty `defaultdict(int)`.  (`dict(ret)` at the end copies `ret`
without changing its contents or order.) -/
def dsum (dicts : List PyDict) : PyDict :=
  dicts.foldl dadd []

/-- The chunking `[genestring[i:i+3] for i in range(0, len(genestring), 3)]`
from `_gene_to_codon`: consecutive 3-character slices, the last one
possibly shorter. -/
def chunk3 : List Char → List (List Char)
  | [] => []
  | [a] => [[a]]
  | [a, b] => [[a, b]]
  | a :: b :: c :: rest => [a, b, c] :: chunk3 rest

/-- Source `_gene_to_codon`.  When the string has at least 3 characters it
returns the list of 3-character chunks, dropping a short trailing chunk.
When the string is shorter than 3 NO return statement runs and Python
returns None: this is modelled by `none`.  (The `except ValueError` branch
of the source is unreachable: nothing in the `try` body raises
ValueError.) -/
def gene_to_codon (genestring : List Char) : Option (List (List Char)) :=
  if 3 ≤ genestring.length then
    let f1 := chunk3 genestring
    if (f1.getLastD []).length = 3 then some f1 else some f1.dropLast
  else
    none

/-- Source `_codon_to_dict`: tokenize `genestring[offset:]` and tally the
codons in insertion order.  When `_gene_to_codon` returned None the
`for codon in framen` loop raises TypeError, modelled by `none`. -/
def codon_to_dict (genestring : List Char) (offset : ℕ) : Option PyDict :=
  match gene_to_codon (genestring.drop offset) with
  | none => none
  | some framen => some (framen.foldl (fun cdict codon => dinsertAdd cdict codon 1) [])

/-- Python `id.split(sep)` for a one-character separator, here the
underscore used by `_parse_prodigal_id_from_biopython`. -/
def split_on_underscore : List Char → List (List Char)
  | [] => [[]]
  | c :: rest =>
      if c = '_' then [] :: split_on_underscore rest
      else
        match split_on_underscore rest with
        | g :: gs => (c :: g) :: gs
        | [] => [[c]]

/-- Source `_parse_prodigal_id_from_biopython`:
`'_'.join(str(id).split('_')[:-1])`. -/
def parse_prodigal_id_from_biopython (id : List Char) : List Char :=
  List.intercalate ['_'] ((split_on_underscore id).dropLast)

/-- A biopython sequence record as consumed by the pipeline: an identifier
and the nucleotide sequence `str(record.seq)`. -/
structure SeqRecord where
  id : List Char
  seq : List Char
deriving DecidableEq

/-- Per-contig accumulator: the value of `codon_dict` when it is not `{}`.
The program only ever stores either `{}` (modelled as `none` at the use
site) or a dict with exactly the keys 0, 1, 2. -/
abbrev Frame3 := PyDict × PyDict × PyDict

instance : DecidableEq Frame3 := inferInstance

instance : DecidableEq (List Char × Frame3) := inferInstance

/-- Source `count_codon_in_gene`: per-offset codon counts of the record,
merged into `cdict` when `cdict` already holds that offset.  `cdict` is
either `{}` (`none`) or a full three-frame dict (`some`).  A result of
`none` models the TypeError raised inside `_codon_to_dict` on a sequence
too short at some offset. -/
def count_codon_in_gene (record : SeqRecord) (cdict : Option Frame3) : Option Frame3 :=
  match codon_to_dict record.seq 0, codon_to_dict record.seq 1, codon_to_dict record.seq 2 with
  | some d0, some d1, some d2 =>
      match cdict with
      | none => some (d0, d1, d2)
      | some (c0, c1, c2) => some (dsum [c0, d0], dsum [c1, d1], dsum [c2, d2])
  | _, _, _ => none

/-- Outcome of running `count_codons` over a record stream: the rows
written to the csv writer, in order, each row keyed by a contig id and
carrying the finalized three-frame accumulator passed to `record_line`.
`err rows` means an exception escaped after `rows` had been written. -/
inductive RunResult where
  | ok (rows : List (List Char × Frame3))
  | err (rows : List (List Char × Frame3))
deriving DecidableEq

/-- The loop of source `count_codons`, carrying `last_base_id` (initially
None) and `codon_dict` (initially `{}`, modelled as `none`).  At the end
of the stream the source flushes with `record_line(id=base_id, ...)`;
`base_id` then equals `last_base_id` (each iteration either found
`base_id == last_base_id` or assigned `last_base_id = base_id`), so the
flush row is keyed here by the carried `last` value.  A non-empty
`codon_dict` with `last_base_id` still None cannot arise (the same
assignment that first fills `codon_dict` also sets `last_base_id`); in
that unreachable configuration this model emits nothing. -/
def count_codons_loop : Option (List Char) → Option Frame3 → List SeqRecord → RunResult
  | last, codon_dict, [] =>
      match codon_dict, last with
      | some f, some l => RunResult.ok [(l, f)]
      | _, _ => RunResult.ok []
  | last, codon_dict, record :: rest =>
      let base_id := parse_prodigal_id_from_biopython record.id
      if last = some base_id then
        match count_codon_in_gene record codon_dict with
        | none => RunResult.err []
        | some f => count_codons_loop (some base_id) (some f) rest
      else
        let emitted : List (List Char × Frame3) :=
          match codon_dict, last with
          | some f, some l => [(l, f)]
          | _, _ => []
        match count_codon_in_gene record none with
        | none => RunResult.err emitted
        | some f =>
            match count_codons_loop (some base_id) (some f) rest with
            | RunResult.ok rows => RunResult.ok (emitted ++ rows)
            | RunResult.err rows => RunResult.err (emitted ++ rows)

/-- Source `count_codons` run on a whole record stream, from the initial
state `last_base_id = None`, `codon_dict = {}`. -/
def count_codons (records : List SeqRecord) : RunResult :=
  count_codons_loop none none records

/-- Number of maximal runs of adjacent records sharing a contig id,
counted from a first id `a`: the number of rows the aggregator should
emit after the stream `a :: ids`. -/
def adjRunsAux (a : List Char) : List (List Char) → ℕ
  | [] => 1
  | b :: rest => if a = b then adjRunsAux a rest else 1 + adjRunsAux b rest

/-- Number of maximal runs of adjacent equal ids in a list. -/
def adjRuns : List (List Char) → ℕ
  | [] => 0
  | a :: rest => adjRunsAux a rest

/-- Source `codon_list`: the fixed codon enumeration that determines the
column order of every output vector, transcribed entry for entry.  Note
that the source list has only 60 entries: the row `GTA, GCA, GAA, GGA`
of the full 64-codon table is absent from the source. -/
def codon_list : List Codon :=
  ["TTT".toList, "TCT".toList, "TAT".toList, "TGT".toList,
   "TTC".toList, "TCC".toList, "TAC".toList, "TGC".toList,
   "TTA".toList, "TCA".toList, "TAA".toList, "TGA".toList,
   "TTG".toList, "TCG".toList, "TAG".toList, "TGG".toList,
   "CTT".toList, "CCT".toList, "CAT".toList, "CGT".toList,
   "CTC".toList, "CCC".toList, "CAC".toList, "CGC".toList,
   "CTA".toList, "CCA".toList, "CAA".toList, "CGA".toList,
   "CTG".toList, "CCG".toList, "CAG".toList, "CGG".toList,
   "ATT".toList, "ACT".toList, "AAT".toList, "AGT".toList,
   "ATC".toList, "ACC".toList, "AAC".toList, "AGC".toList,
   "ATA".toList, "ACA".toList, "AAA".toList, "AGA".toList,
   "ATG".toList, "ACG".toList, "AAG".toList, "AGG".toList,
   "GTT".toList, "GCT".toList, "GAT".toList, "GGT".toList,
   "GTC".toList, "GCC".toList, "GAC".toList, "GGC".toList,
   "GTG".toList, "GCG".toList, "GAG".toList, "GGG".toList]

/-- The nested `geomean` of source `clr`: `a.prod() ** (1.0 / len(a))`.
Floating point arithmetic is idealized over the reals.  On an empty
vector Python would raise ZeroDivisionError; the program only applies it
to vectors of length 60 (one entry per codon of `codon_list`). -/
noncomputable def geomean (vector : List ℝ) : ℝ :=
  vector.prod ^ ((1 : ℝ) / vector.length)

/-- Source `clr`: `[math.log(x / gm) for x in composition]` with `gm` the
geometric mean of the whole composition. -/
noncomputable def clr (composition : List ℝ) : List ℝ :=
  composition.map (fun x => Real.log (x / geomean composition))

/-- The `output_list` built by the first loop of
`count_dict_to_clr_array`: for each codon of the fixed order, its count
in `count_dict`, or 0 when absent. -/
def output_list_int (count_dict : PyDict) (order : List Codon) : List ℕ :=
  order.map (fun i => (dlookup count_dict i).getD 0)

/-- The pseudocount-adjusted dense vector
`[x + pseudocount for x in output_list]`, with the default
`pseudocount = 0.01`. -/
noncomputable def dense_vec (count_dict : PyDict) (order : List Codon) : List ℝ :=
  (output_list_int count_dict order).map (fun (x : ℕ) => (x : ℝ) + 0.01)

/-- Source `count_dict_to_clr_array`: dense pseudocount-adjusted vector
followed by the clr transform. -/
noncomputable def count_dict_to_clr_array (count_dict : PyDict) (order : List Codon) : List ℝ :=
  clr (dense_vec count_dict order)

/-- The feature values of one output row, as assembled by `record_line`
inside `count_codons`: the concatenation `np.concatenate((l0, l1, l2))`
of the three per-offset clr vectors (60 entries each, since the source
`codon_list` has 60 codons, so 180 values per row).  The written csv row
is the contig id followed by exactly these values. -/
noncomputable def feature_vector (codon_dict : Frame3) : List ℝ :=
  count_dict_to_clr_array codon_dict.1 codon_list ++
  count_dict_to_clr_array codon_dict.2.1 codon_list ++
  count_dict_to_clr_array codon_dict.2.2 codon_list

/-
Store-passing model of the dict objects, used to settle the mutation /
aliasing claim about `dsum` and `count_codon_in_gene`.  A store is the
heap of codon-count dict objects, addressed by allocation index; every
primitive Python dict operation of the two source functions becomes an
explicit read, write or allocation on the store.
-/

/-- The heap of codon-count dict objects. -/
abbrev Store := List PyDict

/-- Read the dict object at address `r`. -/
def readD (s : Store) (r : ℕ) : PyDict := s.getD r []

/-- Overwrite the dict object at address `r` (Python in-place mutation). -/
def writeD (s : Store) (r : ℕ) (d : PyDict) : Store := s.set r d

/-- Allocate a fresh dict object holding `d`, returning its address. -/
def allocD (s : Store) (d : PyDict) : Store × ℕ := (s ++ [d], s.length)

/-- The body of one `for k, v in d.items(): ret[k] += v` loop of `dsum`,
mutating the object at address `ret` once per item of `d`. -/
def dsumInner (items : List (Codon × ℕ)) (ret : ℕ) (s : Store) : Store :=
  items.foldl (fun st kv => writeD st ret (dinsertAdd (readD st ret) kv.1 kv.2)) s

/-- Source `dsum` at the store level: allocate `ret = defaultdict(int)`,
fold every item of every argument dict into it in place, and return the
fresh copy `dict(ret)`. -/
def dsumS (s : Store) (dicts : List ℕ) : Store × ℕ :=
  let a1 := allocD s []
  let s2 := dicts.foldl (fun st dr => dsumInner (readD st dr) a1.2 st) a1.1
  allocD s2 (readD s2 a1.2)

/-- Source `_codon_to_dict` at the store level: the local `cdict = {}` is
a fresh object, filled in place by the tally loop. -/
def codonToDictS (s : Store) (genestring : List Char) (offset : ℕ) : Option (Store × ℕ) :=
  match gene_to_codon (genestring.drop offset) with
  | none => none
  | some framen =>
      let a1 := allocD s []
      some (framen.foldl (fun st c => writeD st a1.2 (dinsertAdd (readD st a1.2) c 1)) a1.1, a1.2)

/-- Source `count_codon_in_gene` at the store level.  `cdict` is `{}`
(`none`) or a three-frame dict of addresses of codon-count dict objects.
The body only reads `cdict` (`i in cdict`, `cdict[i]`): the returned
frame `d2` is a fresh mapping whose entries are either the fresh
`_codon_to_dict` objects (`d2[i] = d1[i]`) or fresh `dsum` results. -/
def countCodonInGeneS (s : Store) (cdict : Option (ℕ × ℕ × ℕ)) (record : SeqRecord) :
    Option (Store × (ℕ × ℕ × ℕ)) :=
  match codonToDictS s record.seq 0 with
  | none => none
  | some (s0, a0) =>
    match codonToDictS s0 record.seq 1 with
    | none => none
    | some (s1, a1) =>
      match codonToDictS s1 record.seq 2 with
      | none => none
      | some (s2, a2) =>
        match cdict with
        | none => some (s2, (a0, a1, a2))
        | some (c0, c1, c2) =>
            let r0 := dsumS s2 [c0, a0]
            let r1 := dsumS r0.1 [c1, a1]
            let r2 := dsumS r1.1 [c2, a2]
            some (r2.1, (r0.2, r1.2, r2.2))

/-- The value (dict contents) of a store-level `count_codon_in_gene`
result: what the caller observes through the returned frame. -/
def readOut (res : Option (Store × (ℕ × ℕ × ℕ))) : Option Frame3 :=
  res.map (fun out => (readD out.1 out.2.1, readD out.1 out.2.2.1, readD out.1 out.2.2.2))

/-- Total value carried by key `k` across all items of an association
list (helper for reasoning about `dsum`; on a dict with unique keys this
is just the stored value). -/
def keyTotal (d : PyDict) (k : Codon) : ℕ :=
  (d.map (fun p => if p.1 = k then p.2 else 0)).sum

theorem dlookup_dinsertAdd (d : PyDict) (k k' : Codon) (v : ℕ) :
    dlookup (dinsertAdd d k v) k' =
      if k' = k then some ((dlookup d k').getD 0 + v) else dlookup d k' := by
  induction d with
  | nil =>
      simp only [dinsertAdd, dlookup]
      by_cases h : k' = k
      · subst h; simp
      · rw [if_neg (fun hh : k = k' => h hh.symm), if_neg h]
  | cons p rest ih =>
      obtain ⟨k0, v0⟩ := p
      by_cases h0 : k0 = k
      · subst h0
        rw [show dinsertAdd ((k0, v0) :: rest) k0 v = (k0, v0 + v) :: rest by
              simp [dinsertAdd]]
        by_cases h1 : k0 = k'
        · subst h1
          rw [show dlookup ((k0, v0 + v) :: rest) k0 = some (v0 + v) by simp [dlookup],
              show dlookup ((k0, v0) :: rest) k0 = some v0 by simp [dlookup],
              if_pos rfl]
          simp
        · have h1' : ¬ k' = k0 := fun hh => h1 hh.symm
          rw [show dlookup ((k0, v0 + v) :: rest) k' = dlookup rest k' by simp [dlookup, h1],
              show dlookup ((k0, v0) :: rest) k' = dlookup rest k' by simp [dlookup, h1],
              if_neg h1']
      · rw [show dinsertAdd ((k0, v0) :: rest) k v = (k0, v0) :: dinsertAdd rest k v by
              simp [dinsertAdd, h0]]
        by_cases h1 : k0 = k'
        · have hkk : ¬ k' = k := fun hh => h0 (h1.trans hh)
          rw [show dlookup ((k0, v0) :: dinsertAdd rest k v) k' = some v0 by
                simp [dlookup, h1],
              show dlookup ((k0, v0) :: rest) k' = some v0 by simp [dlookup, h1],
              if_neg hkk]
        · rw [show dlookup ((k0, v0) :: dinsertAdd rest k v) k' = dlookup (dinsertAdd rest k v) k' by
                simp [dlookup, h1],
              show dlookup ((k0, v0) :: rest) k' = dlookup rest k' by simp [dlookup, h1],
              ih]

theorem mem_keys_iff_isSome (d : PyDict) (k : Codon) :
    (∃ p ∈ d, p.1 = k) ↔ (dlookup d k).isSome := by
  induction d with
  | nil => simp [dlookup]
  | cons p rest ih =>
      by_cases h : p.1 = k
      · simp [dlookup, h]
      · simp [dlookup, h, ih, fun hh : k = p.1 => h hh.symm]

theorem keyTotal_nil (k : Codon) : keyTotal [] k = 0 := rfl

theorem keyTotal_cons (p : Codon × ℕ) (rest : PyDict) (k : Codon) :
    keyTotal (p :: rest) k = (if p.1 = k then p.2 else 0) + keyTotal rest k := by
  simp [keyTotal]

theorem keyTotal_eq_zero (d : PyDict) (k : Codon) (h : ¬ ∃ p ∈ d, p.1 = k) :
    keyTotal d k = 0 := by
  induction d with
  | nil => rfl
  | cons p rest ih =>
      rw [keyTotal_cons]
      have h1 : ¬ p.1 = k := fun hh => h ⟨p, List.mem_cons_self p rest, hh⟩
      have h2 : ¬ ∃ q ∈ rest, q.1 = k := fun ⟨q, hq, hqk⟩ => h ⟨q, List.mem_cons_of_mem p hq, hqk⟩
      simp [h1, ih h2]

theorem dadd_nil (ret : PyDict) : dadd ret [] = ret := rfl

theorem dadd_cons (ret : PyDict) (p : Codon × ℕ) (rest : PyDict) :
    dadd ret (p :: rest) = dadd (dinsertAdd ret p.1 p.2) rest := rfl

theorem dlookup_dadd (d : PyDict) (ret : PyDict) (k : Codon) :
    dlookup (dadd ret d) k =
      if (dlookup ret k).isSome = true ∨ (∃ p ∈ d, p.1 = k) then
        some ((dlookup ret k).getD 0 + keyTotal d k)
      else none := by
  induction d generalizing ret with
  | nil =>
      cases h : dlookup ret k <;> simp [dadd_nil, keyTotal_nil, h]
  | cons p rest ih =>
      obtain ⟨k0, v0⟩ := p
      rw [dadd_cons, ih, dlookup_dinsertAdd, keyTotal_cons]
      by_cases hk : k = k0
      · subst hk
        rw [if_pos rfl]
        simp only [if_pos rfl]
        rw [if_pos (Or.inl (by simp)),
            if_pos (Or.inr ⟨(k, v0), List.mem_cons_self _ _, rfl⟩)]
        cases h : dlookup ret k <;> simp [h, Nat.add_assoc]
      · have hk0 : ¬ k0 = k := fun h => hk h.symm
        rw [if_neg hk]
        simp only [if_neg hk0, Nat.zero_add]
        have hmem : (∃ q ∈ ((k0, v0) :: rest : PyDict), q.1 = k) ↔ (∃ q ∈ rest, q.1 = k) := by
          simp only [List.mem_cons]
          constructor
          · rintro ⟨q, hq | hq, hqk⟩
            · subst hq; exact absurd hqk hk0
            · exact ⟨q, hq, hqk⟩
          · rintro ⟨q, hq, hqk⟩
            exact ⟨q, Or.inr hq, hqk⟩
        simp only [hmem]

theorem dsum_pair (a b : PyDict) : dsum [a, b] = dadd (dadd [] a) b := rfl

theorem dlookup_dadd_nil (a : PyDict) (k : Codon) :
    dlookup (dadd [] a) k =
      if (∃ p ∈ a, p.1 = k) then some (keyTotal a k) else none := by
  rw [dlookup_dadd]
  by_cases h : ∃ p ∈ a, p.1 = k
  · rw [if_pos (Or.inr h), if_pos h]
    simp [dlookup]
  · rw [if_neg h, if_neg]
    rintro (hh | hh)
    · simp [dlookup] at hh
    · exact h hh

theorem dlookup_dsum_pair (a b : PyDict) (k : Codon) :
    dlookup (dsum [a, b]) k =
      if (∃ p ∈ a, p.1 = k) ∨ (∃ p ∈ b, p.1 = k) then
        some (keyTotal a k + keyTotal b k)
      else none := by
  rw [dsum_pair, dlookup_dadd, dlookup_dadd_nil]
  by_cases ha : ∃ p ∈ a, p.1 = k
  · by_cases hb : ∃ p ∈ b, p.1 = k <;> simp [ha, hb]
  · by_cases hb : ∃ p ∈ b, p.1 = k
    · simp [ha, hb, keyTotal_eq_zero a k ha]
    · simp [ha, hb]

theorem mem_keys_dinsertAdd (d : PyDict) (k : Codon) (v : ℕ) (x : Codon) :
    x ∈ (dinsertAdd d k v).map Prod.fst ↔ x ∈ d.map Prod.fst ∨ x = k := by
  induction d with
  | nil => simp [dinsertAdd]
  | cons p rest ih =>
      obtain ⟨k0, v0⟩ := p
      by_cases h0 : k0 = k
      · subst h0
        rw [show dinsertAdd ((k0, v0) :: rest) k0 v = (k0, v0 + v) :: rest by
              simp [dinsertAdd]]
        simp only [List.map_cons, List.mem_cons]
        tauto
      · rw [show dinsertAdd ((k0, v0) :: rest) k v = (k0, v0) :: dinsertAdd rest k v by
              simp [dinsertAdd, h0]]
        simp only [List.map_cons, List.mem_cons, ih]
        tauto

theorem nodupK_dinsertAdd (d : PyDict) (k : Codon) (v : ℕ) (h : NodupK d) :
    NodupK (dinsertAdd d k v) := by
  induction d with
  | nil => simp [dinsertAdd, NodupK]
  | cons p rest ih =>
      obtain ⟨k0, v0⟩ := p
      simp only [NodupK, List.map_cons, List.nodup_cons] at h
      by_cases h0 : k0 = k
      · subst h0
        rw [show dinsertAdd ((k0, v0) :: rest) k0 v = (k0, v0 + v) :: rest by
              simp [dinsertAdd]]
        simp only [NodupK, List.map_cons, List.nodup_cons]
        exact h
      · rw [show dinsertAdd ((k0, v0) :: rest) k v = (k0, v0) :: dinsertAdd rest k v by
              simp [dinsertAdd, h0]]
        simp only [NodupK, List.map_cons, List.nodup_cons]
        refine ⟨?_, ih h.2⟩
        intro hmem
        rcases (mem_keys_dinsertAdd rest k v k0).mp hmem with hh | hh
        · exact h.1 hh
        · exact h0 hh

theorem nodupK_dadd (d : PyDict) : ∀ ret : PyDict, NodupK ret → NodupK (dadd ret d) := by
  induction d with
  | nil => intro ret h; exact h
  | cons p rest ih =>
      intro ret h
      rw [dadd_cons]
      exact ih _ (nodupK_dinsertAdd _ _ _ h)

theorem nodupK_nil : NodupK [] := by simp [NodupK]

theorem nodupK_dsum_pair (a b : PyDict) : NodupK (dsum [a, b]) := by
  rw [dsum_pair]
  exact nodupK_dadd _ _ (nodupK_dadd _ _ nodupK_nil)

theorem keyTotal_of_nodupK (d : PyDict) (k : Codon) (h : NodupK d) :
    keyTotal d k = (dlookup d k).getD 0 := by
  induction d with
  | nil => simp [keyTotal_nil, dlookup]
  | cons p rest ih =>
      obtain ⟨k0, v0⟩ := p
      simp only [NodupK, List.map_cons, List.nodup_cons] at h
      rw [keyTotal_cons]
      by_cases h0 : k0 = k
      · subst h0
        have hz : keyTotal rest k0 = 0 := by
          refine keyTotal_eq_zero rest k0 ?_
          rintro ⟨q, hq, hqk⟩
          exact h.1 (hqk ▸ List.mem_map_of_mem Prod.fst hq)
        simp [dlookup, hz]
      · rw [if_neg h0]
        have hrec : NodupK rest := h.2
        simp [dlookup, h0, ih hrec]

theorem keyTotal_dsum_pair (a b : PyDict) (k : Codon) :
    keyTotal (dsum [a, b]) k = keyTotal a k + keyTotal b k := by
  rw [keyTotal_of_nodupK _ _ (nodupK_dsum_pair a b), dlookup_dsum_pair]
  by_cases h : (∃ p ∈ a, p.1 = k) ∨ (∃ p ∈ b, p.1 = k)
  · rw [if_pos h]; rfl
  · rw [if_neg h]
    have ha := keyTotal_eq_zero a k (fun hh => h (Or.inl hh))
    have hb := keyTotal_eq_zero b k (fun hh => h (Or.inr hh))
    simp [ha, hb]

theorem mem_keys_dsum_pair (a b : PyDict) (k : Codon) :
    (∃ p ∈ dsum [a, b], p.1 = k) ↔ (∃ p ∈ a, p.1 = k) ∨ (∃ p ∈ b, p.1 = k) := by
  rw [mem_keys_iff_isSome, dlookup_dsum_pair]
  by_cases h : (∃ p ∈ a, p.1 = k) ∨ (∃ p ∈ b, p.1 = k) <;> simp [h]

theorem dinsertAdd_append (d : PyDict) (k : Codon) (v : ℕ) (h : k ∉ d.map Prod.fst) :
    dinsertAdd d k v = d ++ [(k, v)] := by
  induction d with
  | nil => rfl
  | cons p rest ih =>
      obtain ⟨k0, v0⟩ := p
      simp only [List.map_cons, List.mem_cons] at h
      push_neg at h
      have hne : ¬ k0 = k := fun hh => h.1 hh.symm
      rw [show dinsertAdd ((k0, v0) :: rest) k v = (k0, v0) :: dinsertAdd rest k v by
            simp [dinsertAdd, hne],
          ih h.2]
      rfl

theorem dadd_append (m : PyDict) : ∀ ret : PyDict, NodupK m →
    (∀ p ∈ m, p.1 ∉ ret.map Prod.fst) → dadd ret m = ret ++ m := by
  induction m with
  | nil => intro ret _ _; simp [dadd_nil]
  | cons p rest ih =>
      intro ret hnd hdisj
      obtain ⟨k0, v0⟩ := p
      simp only [NodupK, List.map_cons, List.nodup_cons] at hnd
      have hk0 : k0 ∉ ret.map Prod.fst := hdisj (k0, v0) (List.mem_cons_self _ _)
      rw [dadd_cons]
      have hstep : dinsertAdd ret k0 v0 = ret ++ [(k0, v0)] := dinsertAdd_append ret k0 v0 hk0
      rw [hstep, ih (ret ++ [(k0, v0)]) hnd.2 ?_]
      · simp
      · intro q hq
        simp only [List.map_append, List.mem_append, List.map_cons, List.map_nil,
          List.mem_singleton]
        rintro (hm | hm)
        · exact hdisj q (List.mem_cons_of_mem _ hq) hm
        · exact hnd.1 (hm ▸ List.mem_map_of_mem Prod.fst hq)

theorem dsum_with_empty (m : PyDict) (h : NodupK m) : dsum [m, []] = m := by
  show dadd (dadd [] m) [] = m
  rw [dadd_nil, dadd_append m [] h (by intro p _; simp)]
  rfl

/-- Exactly `k` consecutive 3-character chunks from the front of a list
(helper used to describe `chunk3`). -/
def exactChunks : ℕ → List Char → List (List Char)
  | 0, _ => []
  | k + 1, g => g.take 3 :: exactChunks k (g.drop 3)

theorem length_exactChunks (k : ℕ) : ∀ g : List Char, (exactChunks k g).length = k := by
  induction k with
  | zero => intro g; rfl
  | succ k ih => intro g; simp [exactChunks, ih]

theorem join_exactChunks (k : ℕ) : ∀ g : List Char, 3 * k ≤ g.length →
    (exactChunks k g).flatten = g.take (3 * k) := by
  induction k with
  | zero => intro g _; simp [exactChunks]
  | succ k ih =>
      intro g h
      have hd : (g.drop 3).length = g.length - 3 := by simp
      have h2 : 3 * k ≤ (g.drop 3).length := by omega
      have h3 : 3 * (k + 1) = 3 + 3 * k := by omega
      simp only [exactChunks, List.flatten_cons, ih (g.drop 3) h2, h3, List.take_add]

theorem mem_exactChunks (k : ℕ) : ∀ g : List Char, 3 * k ≤ g.length →
    ∀ c ∈ exactChunks k g, c.length = 3 := by
  induction k with
  | zero => intro g _ c hc; simp [exactChunks] at hc
  | succ k ih =>
      intro g h c hc
      rcases List.mem_cons.mp hc with h1 | h1
      · subst h1
        simp only [List.length_take]
        omega
      · have hd : (g.drop 3).length = g.length - 3 := by simp
        exact ih (g.drop 3) (by omega) c h1

theorem chunk3_decomp : ∀ g : List Char,
    chunk3 g = exactChunks (g.length / 3) g ++
      (if g.length % 3 = 0 then [] else [g.drop (3 * (g.length / 3))])
  | [] => by norm_num [chunk3, exactChunks]
  | [a] => by norm_num [chunk3, exactChunks]
  | [a, b] => by norm_num [chunk3, exactChunks]
  | a :: b :: c :: rest => by
      have ih := chunk3_decomp rest
      have hdiv : (rest.length + 1 + 1 + 1) / 3 = rest.length / 3 + 1 := by omega
      have hmod : (rest.length + 1 + 1 + 1) % 3 = rest.length % 3 := by omega
      have harith : 3 * (rest.length / 3 + 1) = 3 * (rest.length / 3) + 1 + 1 + 1 := by omega
      simp only [chunk3, List.length_cons, hdiv, hmod]
      rw [ih, harith]
      have htake : (a :: b :: c :: rest).take 3 = [a, b, c] := rfl
      have hdropp : (a :: b :: c :: rest).drop 3 = rest := rfl
      have hdrop : (a :: b :: c :: rest).drop (3 * (rest.length / 3) + 1 + 1 + 1) =
          rest.drop (3 * (rest.length / 3)) := rfl
      simp only [exactChunks, htake, hdropp, hdrop, List.cons_append]

theorem gene_to_codon_eq (g : List Char) (h : 3 ≤ g.length) :
    gene_to_codon g = some (exactChunks (g.length / 3) g) := by
  have hle : 3 * (g.length / 3) ≤ g.length := by omega
  have hex := mem_exactChunks (g.length / 3) g hle
  have hstep : gene_to_codon g =
      if ((chunk3 g).getLastD []).length = 3 then some (chunk3 g)
      else some (chunk3 g).dropLast := by
    unfold gene_to_codon
    rw [if_pos h]
  rw [hstep]
  by_cases hm : g.length % 3 = 0
  · have hc : chunk3 g = exactChunks (g.length / 3) g := by
      rw [chunk3_decomp g, if_pos hm, List.append_nil]
    obtain ⟨k, hk⟩ : ∃ k, g.length / 3 = k + 1 := ⟨g.length / 3 - 1, by omega⟩
    have hlast : (exactChunks (g.length / 3) g).getLastD [] ∈ exactChunks (g.length / 3) g := by
      rw [hk]
      simp only [exactChunks]
      rw [List.getLastD_cons]
      exact List.getLastD_mem_cons _ _
    have hlast3 : ((exactChunks (g.length / 3) g).getLastD []).length = 3 := hex _ hlast
    rw [hc, if_pos hlast3]
  · have hc : chunk3 g = exactChunks (g.length / 3) g ++ [g.drop (3 * (g.length / 3))] := by
      rw [chunk3_decomp g, if_neg hm]
    have htail : (g.drop (3 * (g.length / 3))).length = g.length % 3 := by
      simp only [List.length_drop]
      omega
    have hne3 : ¬ ((chunk3 g).getLastD []).length = 3 := by
      rw [hc, List.getLastD_concat, htail]
      omega
    rw [if_neg hne3, hc, List.dropLast_concat]

theorem gene_to_codon_of_ge3 (g : List Char) (h : 3 ≤ g.length) :
    ∃ l, gene_to_codon g = some l ∧ l.length = g.length / 3 ∧
      (∀ c ∈ l, c.length = 3) ∧ l.flatten = g.take (3 * (g.length / 3)) := by
  have hle : 3 * (g.length / 3) ≤ g.length := by omega
  exact ⟨exactChunks (g.length / 3) g, gene_to_codon_eq g h,
    length_exactChunks (g.length / 3) g, mem_exactChunks (g.length / 3) g hle,
    join_exactChunks (g.length / 3) g hle⟩

theorem gene_to_codon_of_short (g : List Char) (h : g.length < 3) :
    gene_to_codon g = none := by
  unfold gene_to_codon
  rw [if_neg (by omega)]

theorem length_clr (xs : List ℝ) : (clr xs).length = xs.length := by
  simp [clr]

theorem length_codon_list : codon_list.length = 60 := by decide

theorem length_dense_vec (d : PyDict) : (dense_vec d codon_list).length = 60 := by
  rw [dense_vec, List.length_map, output_list_int, List.length_map, length_codon_list]

theorem dense_vec_pos (d : PyDict) : ∀ x ∈ dense_vec d codon_list, 0 < x := by
  intro x hx
  rw [dense_vec, List.mem_map] at hx
  obtain ⟨y, _, hval⟩ := hx
  rw [← hval]
  positivity

theorem length_count_dict_to_clr_array (d : PyDict) :
    (count_dict_to_clr_array d codon_list).length = 60 := by
  rw [count_dict_to_clr_array, length_clr, length_dense_vec]

theorem length_feature_vector (f : Frame3) : (feature_vector f).length = 180 := by
  simp [feature_vector, length_count_dict_to_clr_array]

theorem geomean_replicate (c : ℝ) (n : ℕ) (hc : 0 < c) :
    geomean (List.replicate (n + 1) c) = c := by
  unfold geomean
  rw [List.prod_replicate, List.length_replicate]
  rw [← Real.rpow_natCast c (n + 1), ← Real.rpow_mul hc.le]
  have hne : ((n + 1 : ℕ) : ℝ) ≠ 0 := by positivity
  rw [mul_one_div, div_self hne, Real.rpow_one]

theorem clr_replicate (c : ℝ) (n : ℕ) (hc : 0 < c) :
    clr (List.replicate (n + 1) c) = List.replicate (n + 1) (0 : ℝ) := by
  unfold clr
  rw [geomean_replicate c n hc, List.map_replicate, div_self (ne_of_gt hc), Real.log_one]

theorem count_codons_loop_ok_rows : ∀ (records : List SeqRecord)
    (a : List Char) (f : Frame3) (rows : List (List Char × Frame3)),
    count_codons_loop (some a) (some f) records = RunResult.ok rows →
    rows.length = adjRunsAux a (records.map (fun r => parse_prodigal_id_from_biopython r.id)) := by
  intro records
  induction records with
  | nil =>
      intro a f rows h
      simp only [count_codons_loop, RunResult.ok.injEq] at h
      rw [← h]
      rfl
  | cons r rest ih =>
      intro a f rows h
      simp only [count_codons_loop] at h
      by_cases heq : a = parse_prodigal_id_from_biopython r.id
      · rw [if_pos (by rw [heq])] at h
        cases hcig : count_codon_in_gene r (some f) with
        | none => simp only [hcig] at h; exact RunResult.noConfusion h
        | some f2 =>
            simp only [hcig] at h
            rw [ih _ f2 rows h]
            simp only [List.map_cons, adjRunsAux]
            rw [if_pos heq, heq]
      · rw [if_neg (fun hh => heq (Option.some.inj hh))] at h
        cases hcig : count_codon_in_gene r none with
        | none => simp only [hcig] at h; exact RunResult.noConfusion h
        | some f2 =>
            simp only [hcig] at h
            cases hloop : count_codons_loop
                (some (parse_prodigal_id_from_biopython r.id)) (some f2) rest with
            | ok rows2 =>
                simp only [hloop, RunResult.ok.injEq, List.singleton_append] at h
                rw [← h]
                simp only [List.length_cons, List.map_cons, adjRunsAux, if_neg heq]
                rw [ih _ f2 rows2 hloop]
                omega
            | err rows2 => simp only [hloop] at h; exact RunResult.noConfusion h

theorem count_codons_ok_rows (records : List SeqRecord) (rows : List (List Char × Frame3))
    (h : count_codons records = RunResult.ok rows) :
    rows.length = adjRuns (records.map (fun r => parse_prodigal_id_from_biopython r.id)) := by
  cases records with
  | nil =>
      rw [count_codons] at h
      simp only [count_codons_loop, RunResult.ok.injEq] at h
      rw [← h]
      rfl
  | cons r rest =>
      rw [count_codons] at h
      simp only [count_codons_loop] at h
      rw [if_neg (by simp)] at h
      cases hcig : count_codon_in_gene r none with
      | none => simp only [hcig] at h; exact RunResult.noConfusion h
      | some f =>
          simp only [hcig] at h
          cases hloop : count_codons_loop
              (some (parse_prodigal_id_from_biopython r.id)) (some f) rest with
          | ok rows2 =>
              simp only [hloop, List.nil_append, RunResult.ok.injEq] at h
              rw [← h]
              simp only [List.map_cons, adjRuns]
              exact count_codons_loop_ok_rows rest _ f rows2 hloop
          | err rows2 => simp only [hloop] at h; exact RunResult.noConfusion h

theorem length_writeD (s : Store) (r : ℕ) (d : PyDict) : (writeD s r d).length = s.length := by
  simp [writeD]

theorem readD_writeD_ne (s : Store) (r : ℕ) (d : PyDict) (i : ℕ) (h : i ≠ r) :
    readD (writeD s r d) i = readD s i := by
  simp [readD, writeD, List.getD_eq_getElem?_getD, List.getElem?_set_ne (fun hh => h hh.symm)]

theorem readD_writeD_eq (s : Store) (r : ℕ) (d : PyDict) (h : r < s.length) :
    readD (writeD s r d) r = d := by
  simp [readD, writeD, List.getD_eq_getElem?_getD, List.getElem?_set_self h]

theorem readD_append_lt (s t : Store) (i : ℕ) (h : i < s.length) :
    readD (s ++ t) i = readD s i := by
  simp [readD, List.getD_eq_getElem?_getD, List.getElem?_append_left h]

theorem readD_append_len (s : Store) (d : PyDict) :
    readD (s ++ [d]) s.length = d := by
  simp [readD, List.getD_eq_getElem?_getD, List.getElem?_concat_length]

theorem length_dsumInner (items : List (Codon × ℕ)) (ret : ℕ) :
    ∀ s : Store, (dsumInner items ret s).length = s.length := by
  induction items with
  | nil => intro s; rfl
  | cons kv t ih =>
      intro s
      show (dsumInner t ret (writeD s ret (dinsertAdd (readD s ret) kv.1 kv.2))).length = _
      rw [ih, length_writeD]

theorem readD_dsumInner_ne (items : List (Codon × ℕ)) (ret : ℕ) :
    ∀ (s : Store) (i : ℕ), i ≠ ret → readD (dsumInner items ret s) i = readD s i := by
  induction items with
  | nil => intro s i _; rfl
  | cons kv t ih =>
      intro s i h
      show readD (dsumInner t ret (writeD s ret (dinsertAdd (readD s ret) kv.1 kv.2))) i = _
      rw [ih _ i h, readD_writeD_ne _ _ _ _ h]

theorem readD_dsumInner_eq (items : List (Codon × ℕ)) (ret : ℕ) :
    ∀ s : Store, ret < s.length →
      readD (dsumInner items ret s) ret = dadd (readD s ret) items := by
  induction items with
  | nil => intro s _; rfl
  | cons kv t ih =>
      intro s h
      show readD (dsumInner t ret (writeD s ret (dinsertAdd (readD s ret) kv.1 kv.2))) ret = _
      rw [ih _ (by rw [length_writeD]; exact h), readD_writeD_eq _ _ _ h]
      rfl

theorem length_dsumOuter (dicts : List ℕ) (ret : ℕ) :
    ∀ s : Store,
      (dicts.foldl (fun st dr => dsumInner (readD st dr) ret st) s).length = s.length := by
  induction dicts with
  | nil => intro s; rfl
  | cons dr t ih => intro s; rw [List.foldl_cons, ih, length_dsumInner]

theorem readD_dsumOuter_ne (dicts : List ℕ) (ret : ℕ) :
    ∀ (s : Store) (i : ℕ), i ≠ ret →
      readD (dicts.foldl (fun st dr => dsumInner (readD st dr) ret st) s) i = readD s i := by
  induction dicts with
  | nil => intro s i _; rfl
  | cons dr t ih =>
      intro s i h
      rw [List.foldl_cons, ih _ i h, readD_dsumInner_ne _ _ _ i h]

theorem readD_dsumOuter_eq (dicts : List ℕ) (ret : ℕ) :
    ∀ s : Store, ret < s.length → (∀ dr ∈ dicts, dr ≠ ret) →
      readD (dicts.foldl (fun st dr => dsumInner (readD st dr) ret st) s) ret =
        (dicts.map (readD s)).foldl dadd (readD s ret) := by
  induction dicts with
  | nil => intro s _ _; rfl
  | cons dr t ih =>
      intro s h hd
      rw [List.foldl_cons]
      have h1 : ret < (dsumInner (readD s dr) ret s).length := by
        rw [length_dsumInner]; exact h
      rw [ih _ h1 (fun x hx => hd x (List.mem_cons_of_mem _ hx)),
          readD_dsumInner_eq _ _ _ h]
      have hmap : t.map (readD (dsumInner (readD s dr) ret s)) = t.map (readD s) :=
        List.map_congr_left
          (fun x hx => readD_dsumInner_ne _ _ _ _ (hd x (List.mem_cons_of_mem _ hx)))
      rw [hmap, List.map_cons, List.foldl_cons]

theorem dsumS_def (s : Store) (dicts : List ℕ) :
    dsumS s dicts =
      ((dicts.foldl (fun st dr => dsumInner (readD st dr) s.length st) (s ++ [[]])) ++
        [readD (dicts.foldl (fun st dr => dsumInner (readD st dr) s.length st) (s ++ [[]]))
          s.length],
       (dicts.foldl (fun st dr => dsumInner (readD st dr) s.length st) (s ++ [[]])).length) := by
  unfold dsumS allocD
  simp only [dsumInner]

theorem dsumS_preserve (s : Store) (dicts : List ℕ) (i : ℕ) (h : i < s.length) :
    readD (dsumS s dicts).1 i = readD s i := by
  rw [dsumS_def]
  have hlen : i < (dicts.foldl (fun st dr => dsumInner (readD st dr) s.length st)
      (s ++ [[]])).length := by
    rw [length_dsumOuter]
    simp only [List.length_append, List.length_cons, List.length_nil]
    omega
  rw [show ((dicts.foldl (fun st dr => dsumInner (readD st dr) s.length st) (s ++ [[]])) ++
        [readD (dicts.foldl (fun st dr => dsumInner (readD st dr) s.length st) (s ++ [[]]))
          s.length],
       (dicts.foldl (fun st dr => dsumInner (readD st dr) s.length st) (s ++ [[]])).length).1 =
      (dicts.foldl (fun st dr => dsumInner (readD st dr) s.length st) (s ++ [[]])) ++
        [readD (dicts.foldl (fun st dr => dsumInner (readD st dr) s.length st) (s ++ [[]]))
          s.length] from rfl,
      readD_append_lt _ _ i hlen,
      readD_dsumOuter_ne _ _ _ i (by omega)]
  exact readD_append_lt s [[]] i h

theorem dsumS_val (s : Store) (dicts : List ℕ) (h : ∀ dr ∈ dicts, dr < s.length) :
    readD (dsumS s dicts).1 (dsumS s dicts).2 = dsum (dicts.map (readD s)) := by
  rw [dsumS_def]
  show readD (_ ++ [readD (dicts.foldl (fun st dr => dsumInner (readD st dr) s.length st)
      (s ++ [[]])) s.length]) _ = _
  rw [readD_append_len]
  have hret : s.length < (s ++ [[]]).length := by simp
  rw [readD_dsumOuter_eq dicts s.length (s ++ [[]]) hret
        (fun dr hdr => by have := h dr hdr; omega),
      readD_append_len s []]
  have hmap : dicts.map (readD (s ++ [[]])) = dicts.map (readD s) :=
    List.map_congr_left (fun dr hdr => readD_append_lt s [[]] dr (h dr hdr))
  rw [hmap]
  rfl

theorem dsumS_ref_ge (s : Store) (dicts : List ℕ) : s.length ≤ (dsumS s dicts).2 := by
  rw [dsumS_def]
  show s.length ≤ (dicts.foldl (fun st dr => dsumInner (readD st dr) s.length st)
      (s ++ [[]])).length
  rw [length_dsumOuter]
  simp

theorem dsumS_store_length (s : Store) (dicts : List ℕ) :
    (dsumS s dicts).1.length = s.length + 2 := by
  rw [dsumS_def]
  show ((dicts.foldl (fun st dr => dsumInner (readD st dr) s.length st) (s ++ [[]])) ++
      [_]).length = _
  rw [List.length_append, length_dsumOuter]
  simp

theorem codonToDictS_none (s : Store) (g : List Char) (off : ℕ)
    (h : gene_to_codon (g.drop off) = none) : codonToDictS s g off = none := by
  unfold codonToDictS
  rw [h]

theorem codonToDictS_some (s : Store) (g : List Char) (off : ℕ) (framen : List (List Char))
    (h : gene_to_codon (g.drop off) = some framen) :
    codonToDictS s g off =
      some (dsumInner (framen.map (fun c => (c, 1))) s.length (s ++ [[]]), s.length) := by
  unfold codonToDictS allocD
  rw [h]
  simp only [dsumInner, List.foldl_map]

theorem codon_to_dict_dadd (g : List Char) (off : ℕ) (framen : List (List Char))
    (h : gene_to_codon (g.drop off) = some framen) :
    codon_to_dict g off = some (dadd [] (framen.map (fun c => (c, 1)))) := by
  unfold codon_to_dict
  rw [h]
  simp only [dadd, List.foldl_map]

theorem codonToDictS_parts (s : Store) (g : List Char) (off : ℕ) (framen : List (List Char))
    (h : gene_to_codon (g.drop off) = some framen) :
    ∃ s2 : Store, codonToDictS s g off = some (s2, s.length) ∧
      s2.length = s.length + 1 ∧
      (∀ i, i < s.length → readD s2 i = readD s i) ∧
      codon_to_dict g off = some (readD s2 s.length) := by
  refine ⟨dsumInner (framen.map (fun c => (c, 1))) s.length (s ++ [[]]),
    codonToDictS_some s g off framen h, ?_, ?_, ?_⟩
  · rw [length_dsumInner]
    simp
  · intro i hi
    rw [readD_dsumInner_ne _ _ _ i (by omega)]
    exact readD_append_lt s [[]] i hi
  · rw [codon_to_dict_dadd g off framen h]
    have hret : s.length < (s ++ [[]]).length := by simp
    rw [readD_dsumInner_eq _ _ _ hret, readD_append_len s []]

set_option maxHeartbeats 1000000 in
theorem countCodonInGeneS_preserve (s : Store) (cd : Option (ℕ × ℕ × ℕ)) (r : SeqRecord)
    (s' : Store) (f : ℕ × ℕ × ℕ) (h : countCodonInGeneS s cd r = some (s', f)) :
    (∀ i, i < s.length → readD s' i = readD s i) ∧
    s.length ≤ f.1 ∧ s.length ≤ f.2.1 ∧ s.length ≤ f.2.2 := by
  obtain ⟨f0, f1, f2⟩ := f
  unfold countCodonInGeneS at h
  cases hg0 : gene_to_codon (r.seq.drop 0) with
  | none => rw [codonToDictS_none s r.seq 0 hg0] at h; exact Option.noConfusion h
  | some fr0 =>
  obtain ⟨s0, he0, hl0, hp0, hv0⟩ := codonToDictS_parts s r.seq 0 fr0 hg0
  simp only [he0] at h
  cases hg1 : gene_to_codon (r.seq.drop 1) with
  | none => rw [codonToDictS_none s0 r.seq 1 hg1] at h; exact Option.noConfusion h
  | some fr1 =>
  obtain ⟨s1, he1, hl1, hp1, hv1⟩ := codonToDictS_parts s0 r.seq 1 fr1 hg1
  simp only [he1] at h
  cases hg2 : gene_to_codon (r.seq.drop 2) with
  | none => rw [codonToDictS_none s1 r.seq 2 hg2] at h; exact Option.noConfusion h
  | some fr2 =>
  obtain ⟨s2, he2, hl2, hp2, hv2⟩ := codonToDictS_parts s1 r.seq 2 fr2 hg2
  simp only [he2] at h
  cases cd with
  | none =>
      simp only [Option.some.injEq, Prod.mk.injEq] at h
      obtain ⟨hs, ha0, ha1, ha2⟩ := h
      subst hs
      subst ha0
      subst ha1
      subst ha2
      refine ⟨?_, Nat.le_refl _, ?_, ?_⟩
      · intro i hi
        rw [hp2 i (by omega), hp1 i (by omega), hp0 i hi]
      · show s.length ≤ s0.length
        omega
      · show s.length ≤ s1.length
        omega
  | some c =>
      obtain ⟨c0, c1, c2⟩ := c
      simp only [Option.some.injEq, Prod.mk.injEq] at h
      obtain ⟨hs, hb0, hb1, hb2⟩ := h
      subst hs
      subst hb0
      subst hb1
      subst hb2
      have hL0 : (dsumS s2 [c0, s.length]).1.length = s2.length + 2 :=
        dsumS_store_length s2 [c0, s.length]
      have hL1 : (dsumS (dsumS s2 [c0, s.length]).1 [c1, s0.length]).1.length =
          s2.length + 4 := by
        rw [dsumS_store_length, hL0]
      have hr0 := dsumS_ref_ge s2 [c0, s.length]
      have hr1 := dsumS_ref_ge (dsumS s2 [c0, s.length]).1 [c1, s0.length]
      have hr2 := dsumS_ref_ge (dsumS (dsumS s2 [c0, s.length]).1 [c1, s0.length]).1
        [c2, s1.length]
      refine ⟨?_, ?_, ?_, ?_⟩
      · intro i hi
        rw [dsumS_preserve _ _ i (by omega), dsumS_preserve _ _ i (by omega),
            dsumS_preserve _ _ i (by omega), hp2 i (by omega), hp1 i (by omega), hp0 i hi]
      · simp only
        omega
      · simp only
        omega
      · simp only
        omega

theorem countCodonInGeneS_readOut (s : Store) (r : SeqRecord) :
    readOut (countCodonInGeneS s none r) = count_codon_in_gene r none := by
  unfold countCodonInGeneS count_codon_in_gene
  cases hg0 : gene_to_codon (r.seq.drop 0) with
  | none =>
      have hcd0 : codon_to_dict r.seq 0 = none := by unfold codon_to_dict; rw [hg0]
      rw [codonToDictS_none s r.seq 0 hg0]
      simp [readOut, hcd0]
  | some fr0 =>
  obtain ⟨s0, he0, hl0, hp0, hv0⟩ := codonToDictS_parts s r.seq 0 fr0 hg0
  simp only [he0]
  cases hg1 : gene_to_codon (r.seq.drop 1) with
  | none =>
      have hcd1 : codon_to_dict r.seq 1 = none := by unfold codon_to_dict; rw [hg1]
      rw [codonToDictS_none s0 r.seq 1 hg1]
      simp [readOut, hv0, hcd1]
  | some fr1 =>
  obtain ⟨s1, he1, hl1, hp1, hv1⟩ := codonToDictS_parts s0 r.seq 1 fr1 hg1
  simp only [he1]
  cases hg2 : gene_to_codon (r.seq.drop 2) with
  | none =>
      have hcd2 : codon_to_dict r.seq 2 = none := by unfold codon_to_dict; rw [hg2]
      rw [codonToDictS_none s1 r.seq 2 hg2]
      simp [readOut, hv0, hv1, hcd2]
  | some fr2 =>
  obtain ⟨s2, he2, hl2, hp2, hv2⟩ := codonToDictS_parts s1 r.seq 2 fr2 hg2
  simp only [he2]
  rw [hv0, hv1, hv2]
  simp only [readOut, Option.map]
  rw [hp2 s.length (by omega), hp1 s.length (by omega), hp2 s0.length (by omega)]

theorem count_codons_loop_empty_acc (last : Option (List Char)) (r : SeqRecord)
    (rest : List SeqRecord) :
    count_codons_loop last none (r :: rest) =
      match count_codon_in_gene r none with
      | none => RunResult.err []
      | some f => count_codons_loop (some (parse_prodigal_id_from_biopython r.id)) (some f) rest := by
  simp only [count_codons_loop]
  by_cases hl : last = some (parse_prodigal_id_from_biopython r.id)
  · rw [if_pos hl]
  · rw [if_neg hl]
    cases hcig : count_codon_in_gene r none with
    | none => rfl
    | some f =>
        cases hloop : count_codons_loop
            (some (parse_prodigal_id_from_biopython r.id)) (some f) rest <;>
          simp [hloop]

theorem split_no_underscore : ∀ id : List Char, '_' ∉ id →
    split_on_underscore id = [id] := by
  intro id
  induction id with
  | nil => intro _; rfl
  | cons c rest ih =>
      intro h
      have hc : ¬ c = '_' := fun hh => h (by rw [← hh]; exact List.mem_cons_self c rest)
      have hrest : '_' ∉ rest := fun hm => h (List.mem_cons_of_mem c hm)
      simp [split_on_underscore, hc, ih hrest]

/-- C1: the claim is right that on the record stream
`ctg1_1 : ATGATGATG`, `ctg1_2 : TTTTTTTTT`, `ctg2_1 : GGGGGGGGG`,
`count_codons` writes exactly two rows, keyed `ctg1` then `ctg2` in
first-seen order, with the `ctg1` row built from the `dsum` (key-wise
sum) of the per-offset codon counts of both `ctg1` records.  But each
row carries the contig id followed by 180 feature values, not the
claimed 192: the source `codon_list` enumerates only 60 codons (the
`GTA, GCA, GAA, GGA` row of the full table is missing), so each of the
three per-offset clr vectors has 60 entries.  This theorem evaluates the
code on the claimed input stream, exhibiting the actual row shapes. -/
theorem C1_end_to_end_actual :
    ∃ a0 a1 a2 b0 b1 b2 : PyDict, ∃ g : Frame3,
      codon_to_dict "ATGATGATG".toList 0 = some a0 ∧
      codon_to_dict "ATGATGATG".toList 1 = some a1 ∧
      codon_to_dict "ATGATGATG".toList 2 = some a2 ∧
      codon_to_dict "TTTTTTTTT".toList 0 = some b0 ∧
      codon_to_dict "TTTTTTTTT".toList 1 = some b1 ∧
      codon_to_dict "TTTTTTTTT".toList 2 = some b2 ∧
      count_codons
        [⟨"ctg1_1".toList, "ATGATGATG".toList⟩,
         ⟨"ctg1_2".toList, "TTTTTTTTT".toList⟩,
         ⟨"ctg2_1".toList, "GGGGGGGGG".toList⟩] =
        RunResult.ok
          [("ctg1".toList, (dsum [a0, b0], dsum [a1, b1], dsum [a2, b2])),
           ("ctg2".toList, g)] ∧
      (feature_vector (dsum [a0, b0], dsum [a1, b1], dsum [a2, b2])).length = 180 ∧
      (feature_vector g).length = 180 := by
  refine ⟨[("ATG".toList, 3)], [("TGA".toList, 2)], [("GAT".toList, 2)],
    [("TTT".toList, 3)], [("TTT".toList, 2)], [("TTT".toList, 2)],
    ([("GGG".toList, 3)], [("GGG".toList, 2)], [("GGG".toList, 2)]),
    by decide, by decide, by decide, by decide, by decide, by decide, by decide,
    length_feature_vector _, length_feature_vector _⟩

/-- C2: the claim says a string with fewer than 3 characters after the
offset tokenizes to an empty codon sequence without raising.  The code
disagrees: `_gene_to_codon` falls through its `if` and returns None
(`none`), and the `for codon in framen` loop of `_codon_to_dict` then
raises TypeError (`none` results below), so such a record aborts the run
instead of contributing zero counts.  Evaluated at a length-2 string and
at a length-3 string read at offsets 1 and 2. -/
theorem C2_short_sequence_raises :
    gene_to_codon ['A', 'T'] = none ∧
    codon_to_dict ['A', 'T'] 0 = none ∧
    codon_to_dict "ATG".toList 1 = none ∧
    count_codon_in_gene ⟨"ctg1_1".toList, ['A', 'T']⟩ none = none ∧
    count_codon_in_gene ⟨"ctg1_1".toList, "ATG".toList⟩ none = none := by
  decide

/-- C3: the claim says a single record shorter than 3 characters yields
one all-zero output row.  On the code, processing that record raises
TypeError inside `_codon_to_dict` (via the None return of
`_gene_to_codon`), so the pipeline aborts having written no rows at
all. -/
theorem C3_short_record_raises :
    count_codons [⟨"ctg1_1".toList, ['A', 'T']⟩] = RunResult.err [] := by
  decide

/-- C4 counterexample: on the identifier `noUnderscore` (no underscore
separator), `'_'.join(id.split('_')[:-1])` raises nothing and silently
returns the empty string, and `count_codons` runs to completion emitting
a row keyed by the empty string — refuting the claim that a missing
separator fails with an error that propagates. -/
theorem C4_no_underscore_counterexample :
    parse_prodigal_id_from_biopython "noUnderscore".toList = [] ∧
    count_codons [⟨"noUnderscore".toList, "ATGATGATG".toList⟩] =
      RunResult.ok
        [([], ([("ATG".toList, 3)], [("TGA".toList, 2)], [("GAT".toList, 2)]))] := by
  decide

/-- C4 (amended): for every record identifier lacking the underscore
separator, deriving the parent contig id does not fail: it silently
returns the empty string (and the aggregator proceeds, grouping such
records under the empty id). -/
theorem C4_no_underscore_amended (id : List Char) (h : '_' ∉ id) :
    parse_prodigal_id_from_biopython id = [] := by
  unfold parse_prodigal_id_from_biopython
  rw [split_no_underscore id h]
  rfl

/-- Witness for C4 (amended) at a concrete underscore-free identifier. -/
theorem C4_no_underscore_amended_witness :
    parse_prodigal_id_from_biopython "abc".toList = [] :=
  C4_no_underscore_amended "abc".toList (by decide)

/-- C5: `count_codons` never emits a row while its accumulator is empty:
an empty stream produces no rows and no error; a first record (empty
accumulator, any `last_base_id`) emits nothing and only seeds the
accumulator; and a completed run emits exactly one row per maximal run
of adjacent records sharing a contig id — in particular the final
contig, whose records end the stream mid-accumulation, is flushed
exactly once. -/
theorem C5_aggregator_guarded_emission :
    (count_codons [] = RunResult.ok []) ∧
    (∀ (last : Option (List Char)) (r : SeqRecord) (rest : List SeqRecord),
        count_codons_loop last none (r :: rest) =
          match count_codon_in_gene r none with
          | none => RunResult.err []
          | some f =>
              count_codons_loop (some (parse_prodigal_id_from_biopython r.id)) (some f) rest) ∧
    (∀ (records : List SeqRecord) (rows : List (List Char × Frame3)),
        count_codons records = RunResult.ok rows →
        rows.length = adjRuns (records.map (fun r => parse_prodigal_id_from_biopython r.id))) :=
  ⟨rfl, count_codons_loop_empty_acc, count_codons_ok_rows⟩

/-- Witness for C5 at a one-record stream: the completed run emitted
exactly one row (the end-of-input flush), matching the single adjacent
run of ids. -/
theorem C5_aggregator_guarded_emission_witness :
    ([("ctg1".toList,
        (([("ATG".toList, 3)], [("TGA".toList, 2)], [("GAT".toList, 2)]) : Frame3))].length) =
      adjRuns (([⟨"ctg1_1".toList, "ATGATGATG".toList⟩] : List SeqRecord).map
        (fun r => parse_prodigal_id_from_biopython r.id)) :=
  C5_aggregator_guarded_emission.2.2 [⟨"ctg1_1".toList, "ATGATGATG".toList⟩] _ (by decide)

/-- C6 counterexample: on the 2-character sequence `AB` at offset 0 the
claim predicts a tokenization of floor(2/3) = 0 chunks; the code instead
returns None (no list at all), and downstream iteration raises. -/
theorem C6_short_tokenize_counterexample :
    gene_to_codon ((['A', 'B'] : List Char).drop 0) = none := by
  decide

/-- C6 (amended): when at least one whole codon is available
(`o + 3 ≤ L`) the tokenization of `s` at offset `o` is a list of
floor((L-o)/3) three-character chunks whose concatenation is
`s[o : o + 3*floor((L-o)/3)]` (a short trailing chunk is discarded);
when fewer than 3 characters remain the code returns None instead of an
empty chunk list. -/
theorem C6_tokenize_amended :
    (∀ (s : List Char) (o : ℕ), o + 3 ≤ s.length →
      ∃ l, gene_to_codon (s.drop o) = some l ∧
        l.length = (s.length - o) / 3 ∧ (∀ c ∈ l, c.length = 3) ∧
        l.flatten = (s.drop o).take (3 * ((s.length - o) / 3))) ∧
    (∀ (s : List Char) (o : ℕ), s.length < o + 3 → gene_to_codon (s.drop o) = none) := by
  constructor
  · intro s o h
    have hlen : (s.drop o).length = s.length - o := by simp
    have h3 : 3 ≤ (s.drop o).length := by omega
    obtain ⟨l, h1, h2, h3', h4⟩ := gene_to_codon_of_ge3 _ h3
    rw [hlen] at h2 h4
    exact ⟨l, h1, h2, h3', h4⟩
  · intro s o h
    have hlen : (s.drop o).length = s.length - o := by simp
    exact gene_to_codon_of_short _ (by omega)

/-- Witness for C6 (amended): the long-enough case at `ATGA`, offset 1,
and the too-short case at `AB`, offset 1. -/
theorem C6_tokenize_amended_witness :
    (∃ l, gene_to_codon (("ATGA".toList).drop 1) = some l ∧
      l.length = ("ATGA".toList.length - 1) / 3 ∧ (∀ c ∈ l, c.length = 3) ∧
      l.flatten = (("ATGA".toList).drop 1).take (3 * (("ATGA".toList.length - 1) / 3))) ∧
    gene_to_codon ((['A', 'B'] : List Char).drop 1) = none :=
  ⟨C6_tokenize_amended.1 "ATGA".toList 1 (by decide),
   C6_tokenize_amended.2 ['A', 'B'] 1 (by decide)⟩

/-- C7: `dsum` (key-wise integer sum, absent keys read as 0) is
commutative and associative on all codon count maps up to Python dict
equality, and merging a map `m` (unique keys, as every Python dict has)
with the empty map returns `m` itself. -/
theorem C7_dsum_comm_assoc_identity :
    (∀ a b : PyDict, pyEq (dsum [a, b]) (dsum [b, a])) ∧
    (∀ a b c : PyDict, pyEq (dsum [dsum [a, b], c]) (dsum [a, dsum [b, c]])) ∧
    (∀ m : PyDict, NodupK m → dsum [m, []] = m) := by
  refine ⟨?_, ?_, dsum_with_empty⟩
  · intro a b k
    rw [dlookup_dsum_pair, dlookup_dsum_pair]
    by_cases h : (∃ p ∈ a, p.1 = k) ∨ (∃ p ∈ b, p.1 = k)
    · rw [if_pos h, if_pos h.symm, Nat.add_comm]
    · rw [if_neg h, if_neg (fun hc => h hc.symm)]
  · intro a b c k
    rw [dlookup_dsum_pair, dlookup_dsum_pair, keyTotal_dsum_pair, keyTotal_dsum_pair]
    simp only [mem_keys_dsum_pair]
    by_cases h : (∃ p ∈ a, p.1 = k) ∨ (∃ p ∈ b, p.1 = k) ∨ (∃ p ∈ c, p.1 = k)
    · rw [if_pos (or_assoc.mpr h), if_pos h, Nat.add_assoc]
    · rw [if_neg (fun hc => h (or_assoc.mp hc)), if_neg h]

/-- Witness for C7 at a concrete one-entry map: merging with the empty
map returns the map unchanged. -/
theorem C7_dsum_comm_assoc_identity_witness :
    dsum [[("AAA".toList, 2)], []] = [("AAA".toList, 2)] :=
  C7_dsum_comm_assoc_identity.2.2 [("AAA".toList, 2)] (by unfold NodupK; decide)

/-- C8: the claim says the dense vector has exactly 64 entries (one per
codon of a fixed 64-codon enumeration) and hence every feature vector
192 entries.  On the code, `codon_list` enumerates only 60 codons — the
`GTA, GCA, GAA, GGA` row of the full codon table is missing from the
source — so the dense vector has 60 entries and every feature vector
180.  The per-entry construction the claim describes does hold: each
entry is the count of one codon of the fixed order (0 when absent) plus
the pseudocount 0.01, hence strictly positive.  This theorem evaluates
the code, exhibiting the 60-entry enumeration, the four absent codons
and the actual 60/180 shapes. -/
theorem C8_dense_vector_shape_bug :
    codon_list.length = 60 ∧
    ("GTA".toList ∉ codon_list ∧ "GCA".toList ∉ codon_list ∧
     "GAA".toList ∉ codon_list ∧ "GGA".toList ∉ codon_list) ∧
    (∀ d : PyDict, (dense_vec d codon_list).length = 60 ∧
      (dense_vec d codon_list).Forall (fun x => 0 < x)) ∧
    (∀ f : Frame3, (feature_vector f).length = 180) := by
  refine ⟨length_codon_list, by decide,
    fun d => ⟨length_dense_vec d, ?_⟩, length_feature_vector⟩
  exact List.forall_iff_forall_mem.mpr (dense_vec_pos d)

/-- C9: `clr` maps a vector to the same-length vector of
`ln(x_i / g)` with `g` the geometric mean of all entries, and on a
vector whose entries are all equal to a positive constant it returns the
all-zeros vector. -/
theorem C9_clr_spec :
    (∀ (xs : List ℝ) (i : ℕ), (clr xs)[i]? =
        (xs[i]?).map (fun x => Real.log (x / geomean xs))) ∧
    (∀ (x : ℝ) (xs : List ℝ), (clr (x :: xs)).length = (x :: xs).length) ∧
    (∀ (c : ℝ) (n : ℕ), 0 < c →
        clr (List.replicate (n + 1) c) = List.replicate (n + 1) (0 : ℝ)) := by
  refine ⟨?_, ?_, clr_replicate⟩
  · intro xs i
    simp [clr]
  · intro x xs
    exact length_clr _

/-- Witness for C9: the clr of the constant vector (2, 2, 2) is
(0, 0, 0). -/
theorem C9_clr_spec_witness :
    clr (List.replicate 3 (2 : ℝ)) = List.replicate 3 (0 : ℝ) :=
  C9_clr_spec.2.2 2 2 (by norm_num)

/-- C10: in the store-level model of the dict objects, `dsum` leaves
every pre-existing dict object unchanged (it only fills a fresh
defaultdict and returns a fresh copy) and its result value is the pure
key-wise sum; `count_codon_in_gene` likewise leaves every pre-existing
object — in particular `cdict` and the inner maps it references —
unchanged, and the frame it returns references only freshly allocated
objects; consequently a call with the (never-mutated) default empty
`cdict` observes exactly the pure result, independent of allocations
made by earlier calls. -/
theorem C10_no_mutation :
    (∀ (s : Store) (dicts : List ℕ) (i : ℕ), i < s.length →
        readD (dsumS s dicts).1 i = readD s i) ∧
    (∀ (s : Store) (dicts : List ℕ), (∀ dr ∈ dicts, dr < s.length) →
        readD (dsumS s dicts).1 (dsumS s dicts).2 = dsum (dicts.map (readD s))) ∧
    (∀ (s : Store) (cd : Option (ℕ × ℕ × ℕ)) (r : SeqRecord) (s2 : Store) (f : ℕ × ℕ × ℕ),
        countCodonInGeneS s cd r = some (s2, f) →
        (∀ i, i < s.length → readD s2 i = readD s i) ∧
        s.length ≤ f.1 ∧ s.length ≤ f.2.1 ∧ s.length ≤ f.2.2) ∧
    (∀ (s : Store) (r : SeqRecord),
        readOut (countCodonInGeneS s none r) = count_codon_in_gene r none) :=
  ⟨dsumS_preserve, dsumS_val, countCodonInGeneS_preserve, countCodonInGeneS_readOut⟩

/-- Witness for C10 at a one-object store: the pre-existing dict object
is untouched by `dsum` and by `count_codon_in_gene`, and the summed
value read back through the fresh reference is the pure `dsum`. -/
theorem C10_no_mutation_witness :
    readD (dsumS [[("AAA".toList, 1)]] [0, 0]).1 0 = [("AAA".toList, 1)] ∧
    readD (dsumS [[("AAA".toList, 1)]] [0, 0]).1 (dsumS [[("AAA".toList, 1)]] [0, 0]).2 =
      dsum [[("AAA".toList, 1)], [("AAA".toList, 1)]] ∧
    readD [[("AAA".toList, 1)], [("ATG".toList, 3)], [("TGA".toList, 2)],
        [("GAT".toList, 2)]] 0 = readD [[("AAA".toList, 1)]] 0 := by
  refine ⟨?_, ?_, ?_⟩
  · rw [C10_no_mutation.1 [[("AAA".toList, 1)]] [0, 0] 0 (by decide)]
    rfl
  · rw [C10_no_mutation.2.1 [[("AAA".toList, 1)]] [0, 0] (by decide)]
    rfl
  · exact (C10_no_mutation.2.2.1 [[("AAA".toList, 1)]] none
      ⟨"ctg1_1".toList, "ATGATGATG".toList⟩
      [[("AAA".toList, 1)], [("ATG".toList, 3)], [("TGA".toList, 2)], [("GAT".toList, 2)]]
      (1, 2, 3) (by decide)).1 0 (by decide)
